import Mathlib

/-!
Verification of the feed-ingestion and note-drafting logic of the
`note-exte` client (source: `src/src/App.tsx` and the `CreateNote`
component in `src/unnamed/part_000`).

The repository's helper `insertEventIntoDescendingList` is imported by
`App.tsx` from `./utils/helperFunctions`, a file that is not part of the
snapshot; it is therefore modelled from the specification's description of
the insertion algorithm (§4.1 of the spec).  Everything else is translated
from the source files.
-/

/-- A Nostr event as used by `App.tsx` (nostr-tools `Event`): an opaque
content-addressed `id`, the author's `pubkey`, an integer `created_at`
timestamp, a `kind`, tags, content, and a signature. -/
structure Event where
  id : String
  pubkey : String
  created_at : Int
  kind : Nat
  tags : List (List String)
  content : String
  sig : String
deriving DecidableEq, Repr

/-- Shorthand for building a text-note event whose tag/content/signature
fields are irrelevant to the ingestor (which inspects only `id`,
`created_at` and, downstream, `pubkey`). -/
def mkEv (id : String) (ts : Int) (pubkey : String := "") : Event :=
  { id := id, pubkey := pubkey, created_at := ts, kind := 1,
    tags := [], content := "", sig := "" }

/-- Modelled from the spec: the insertion scan of
`insertEventIntoDescendingList` (its source, `src/utils/helperFunctions`,
is missing from the snapshot).  Per §4.1: scan from the front of the
ordered sequence for the first resident whose `timestamp` is strictly less
than the new item's; insert the new item immediately before that position;
if no such position exists, insert at the end. -/
def insertByTimestamp : List Event → Event → List Event
  | [], ev => [ev]
  | e :: rest, ev =>
      if e.created_at < ev.created_at then ev :: e :: rest
      else e :: insertByTimestamp rest ev

/-- Modelled from the spec: `insertEventIntoDescendingList` (its source,
`src/utils/helperFunctions`, is missing from the snapshot).  Per §4.1's
duplicate policy, if an item with the same `id` already exists anywhere in
the feed the operation is a no-op returning the feed unchanged; otherwise
the item is inserted by the descending-timestamp scan. -/
def insertEventIntoDescendingList (feed : List Event) (event : Event) :
    List Event :=
  if feed.any (fun e => e.id == event.id) then feed
  else insertByTimestamp feed event

/-- The feed obtained by inserting a sequence of arrivals, in arrival
order, into an initially empty feed — the evolution of the `events` state
in `App.tsx` under `sub.on("event", ...)` within one subscription epoch. -/
def feedOf (arrivals : List Event) : List Event :=
  arrivals.foldl insertEventIntoDescendingList []

/-- Feed invariant 1 (§3): sorted by `timestamp` descending.  Stated as
`Pairwise`, which implies the adjacent-pair formulation. -/
def sortedDesc (feed : List Event) : Prop :=
  feed.Pairwise (fun a b => b.created_at ≤ a.created_at)

/-- Feed invariant 2 (§3): no two items of the feed share an `id`. -/
def uniqueIds (feed : List Event) : Prop :=
  feed.Pairwise (fun a b => a.id ≠ b.id)

instance (feed : List Event) : Decidable (sortedDesc feed) := by
  unfold sortedDesc; infer_instance

instance (feed : List Event) : Decidable (uniqueIds feed) := by
  unfold uniqueIds; infer_instance

/-! ### Lemmas about the insertion scan -/

lemma mem_insertByTimestamp {feed : List Event} {ev x : Event} :
    x ∈ insertByTimestamp feed ev ↔ x = ev ∨ x ∈ feed := by
  induction feed with
  | nil => simp [insertByTimestamp]
  | cons e rest ih =>
      by_cases h : e.created_at < ev.created_at
      · simp [insertByTimestamp, h]
      · simp [insertByTimestamp, h, ih]
        tauto

lemma sortedDesc_insertByTimestamp {feed : List Event} {ev : Event}
    (hs : sortedDesc feed) : sortedDesc (insertByTimestamp feed ev) := by
  induction feed with
  | nil => simp [insertByTimestamp, sortedDesc]
  | cons e rest ih =>
      rw [sortedDesc, List.pairwise_cons] at hs
      obtain ⟨he, hrest⟩ := hs
      by_cases h : e.created_at < ev.created_at
      · rw [sortedDesc, insertByTimestamp]
        simp only [h, if_true]
        refine List.pairwise_cons.mpr ⟨?_, List.pairwise_cons.mpr ⟨he, hrest⟩⟩
        intro b hb
        rcases List.mem_cons.mp hb with rfl | hb
        · exact le_of_lt h
        · exact le_trans (he b hb) (le_of_lt h)
      · rw [sortedDesc, insertByTimestamp]
        simp only [h, if_false]
        refine List.pairwise_cons.mpr ⟨?_, ih hrest⟩
        intro b hb
        rcases mem_insertByTimestamp.mp hb with rfl | hb
        · exact not_lt.mp h
        · exact he b hb

lemma uniqueIds_insertByTimestamp {feed : List Event} {ev : Event}
    (hu : uniqueIds feed) (hfresh : ∀ e ∈ feed, e.id ≠ ev.id) :
    uniqueIds (insertByTimestamp feed ev) := by
  induction feed with
  | nil => simp [insertByTimestamp, uniqueIds]
  | cons e rest ih =>
      rw [uniqueIds, List.pairwise_cons] at hu
      obtain ⟨he, hrest⟩ := hu
      by_cases h : e.created_at < ev.created_at
      · rw [uniqueIds, insertByTimestamp]
        simp only [h, if_true]
        refine List.pairwise_cons.mpr ⟨?_, List.pairwise_cons.mpr ⟨he, hrest⟩⟩
        intro b hb
        rcases List.mem_cons.mp hb with hb | hb
        · subst hb; exact fun hc => hfresh b (by simp) hc.symm
        · exact fun hc => hfresh b (by simp [hb]) hc.symm
      · rw [uniqueIds, insertByTimestamp]
        simp only [h, if_false]
        refine List.pairwise_cons.mpr
          ⟨?_, ih hrest (fun x hx => hfresh x (by simp [hx]))⟩
        intro b hb
        rcases mem_insertByTimestamp.mp hb with hb | hb
        · subst hb; exact hfresh e (by simp)
        · exact he b hb

lemma uniqueIds_insert {feed : List Event} {ev : Event}
    (hu : uniqueIds feed) :
    uniqueIds (insertEventIntoDescendingList feed ev) := by
  rw [insertEventIntoDescendingList]
  by_cases hdup : feed.any (fun e => e.id == ev.id)
  · simpa [hdup] using hu
  · simp only [hdup, if_false]
    refine uniqueIds_insertByTimestamp hu ?_
    intro e he
    simp only [List.any_eq_true, beq_iff_eq, not_exists] at hdup
    push_neg at hdup
    exact hdup e he

lemma sortedDesc_insert {feed : List Event} {ev : Event}
    (hs : sortedDesc feed) :
    sortedDesc (insertEventIntoDescendingList feed ev) := by
  rw [insertEventIntoDescendingList]
  by_cases hdup : feed.any (fun e => e.id == ev.id)
  · simpa [hdup] using hs
  · simp only [hdup, if_false]
    exact sortedDesc_insertByTimestamp hs

lemma feedOf_invariants (arrivals : List Event) :
    sortedDesc (feedOf arrivals) ∧ uniqueIds (feedOf arrivals) := by
  rw [feedOf]
  have h : ∀ (l : List Event) (feed : List Event),
      sortedDesc feed → uniqueIds feed →
      sortedDesc (l.foldl insertEventIntoDescendingList feed) ∧
      uniqueIds (l.foldl insertEventIntoDescendingList feed) := by
    intro l
    induction l with
    | nil => intro feed hs hu; exact ⟨hs, hu⟩
    | cons ev rest ih =>
        intro feed hs hu
        exact ih _ (sortedDesc_insert hs) (uniqueIds_insert hu)
  exact h arrivals [] (by simp [sortedDesc]) (by simp [uniqueIds])

lemma mem_insert {feed : List Event} {ev x : Event}
    (hx : x ∈ insertEventIntoDescendingList feed ev) : x = ev ∨ x ∈ feed := by
  rw [insertEventIntoDescendingList] at hx
  by_cases hdup : feed.any (fun e => e.id == ev.id)
  · simp only [hdup, if_true] at hx
    exact Or.inr hx
  · simp only [hdup, if_false] at hx
    exact mem_insertByTimestamp.mp hx

lemma mem_foldl_insert {l : List Event} {feed : List Event} {x : Event}
    (hx : x ∈ l.foldl insertEventIntoDescendingList feed) :
    x ∈ feed ∨ x ∈ l := by
  induction l generalizing feed with
  | nil => exact Or.inl hx
  | cons ev rest ih =>
      rcases ih (by simpa using hx) with h | h
      · rcases mem_insert h with h | h
        · exact Or.inr (by simp [h])
        · exact Or.inl h
      · exact Or.inr (by simp [h])

lemma insertByTimestamp_append (pre post : List Event) (ev : Event)
    (hpre : ∀ e ∈ pre, ¬ e.created_at < ev.created_at)
    (hpost : ∀ e ∈ post.take 1, e.created_at < ev.created_at) :
    insertByTimestamp (pre ++ post) ev = pre ++ ev :: post := by
  induction pre with
  | nil =>
      cases post with
      | nil => rfl
      | cons e rest =>
          have he : e.created_at < ev.created_at := hpost e (by simp)
          simp [insertByTimestamp, he]
  | cons a pre' ih =>
      have ha : ¬ a.created_at < ev.created_at := hpre a (by simp)
      simp only [List.cons_append, insertByTimestamp, ha, if_false]
      rw [List.append_eq, ih (fun e he => hpre e (by simp [he]))]

/-! ### Claim theorems for the ingestor -/

/-- C1: for every feed satisfying the feed invariants (sorted descending,
unique ids) and every item whose `id` already occurs anywhere in the feed,
`insertEventIntoDescendingList` returns the feed itself — unchanged in
content and order; equivalently, inserting the same item twice yields the
same feed as inserting it once. -/
theorem insert_duplicate_noop_and_idempotent (feed : List Event)
    (ev : Event) (_hs : sortedDesc feed) (_hu : uniqueIds feed) :
    (feed.any (fun e => e.id == ev.id) = true →
      insertEventIntoDescendingList feed ev = feed) ∧
    insertEventIntoDescendingList (insertEventIntoDescendingList feed ev) ev
      = insertEventIntoDescendingList feed ev := by
  constructor
  · intro hdup
    simp [insertEventIntoDescendingList, hdup]
  · by_cases hdup : feed.any (fun e => e.id == ev.id)
    · simp [insertEventIntoDescendingList, hdup]
    · have hmem : (insertEventIntoDescendingList feed ev).any
          (fun e => e.id == ev.id) = true := by
        refine List.any_eq_true.mpr ⟨ev, ?_, by simp⟩
        rw [insertEventIntoDescendingList]
        simp only [hdup, if_false]
        exact mem_insertByTimestamp.mpr (Or.inl rfl)
      rw [insertEventIntoDescendingList, hmem, if_pos rfl]

/-- Witness for C1 at a concrete feed and duplicate item. -/
theorem insert_duplicate_noop_and_idempotent_witness :
    sortedDesc [mkEv "a" 100] ∧ uniqueIds [mkEv "a" 100] ∧
    ([mkEv "a" 100].any (fun e => e.id == (mkEv "a" 50).id) = true) ∧
    insertEventIntoDescendingList [mkEv "a" 100] (mkEv "a" 50)
      = [mkEv "a" 100] :=
  ⟨by decide, by decide, by decide,
    (insert_duplicate_noop_and_idempotent [mkEv "a" 100] (mkEv "a" 50)
      (by decide) (by decide)).1 (by decide)⟩

/-- C2: for every sequence of arrivals inserted one at a time into an
initially empty feed, the resulting feed has every adjacent pair
non-increasing in timestamp and no two elements sharing an `id`.  Since
the statement quantifies over all arrival sequences, it applies to every
prefix of a sequence, i.e. "after each insert". -/
theorem feed_sorted_and_unique (arrivals : List Event) :
    List.Chain' (fun a b => b.created_at ≤ a.created_at)
      (feedOf arrivals) ∧
    List.Pairwise (fun a b => a.id ≠ b.id) (feedOf arrivals) :=
  ⟨(feedOf_invariants arrivals).1.chain', (feedOf_invariants arrivals).2⟩

/-- C3: a fresh item is inserted immediately before the first existing
item with a strictly smaller timestamp (so newly arriving same-timestamp
items land after previously-known same-timestamp items), and concretely
inserting A (id 1, ts 100) then B (id 2, ts 100) into an empty feed gives
[A, B], then C (id 3, ts 100) gives [A, B, C]. -/
theorem insert_tie_placement :
    (∀ (pre post : List Event) (ev : Event),
        (pre ++ post).any (fun e => e.id == ev.id) = false →
        (∀ e ∈ pre, ¬ e.created_at < ev.created_at) →
        (∀ e ∈ post.take 1, e.created_at < ev.created_at) →
        insertEventIntoDescendingList (pre ++ post) ev
          = pre ++ ev :: post) ∧
    feedOf [mkEv "1" 100, mkEv "2" 100]
      = [mkEv "1" 100, mkEv "2" 100] ∧
    feedOf [mkEv "1" 100, mkEv "2" 100, mkEv "3" 100]
      = [mkEv "1" 100, mkEv "2" 100, mkEv "3" 100] := by
  refine ⟨?_, by decide, by decide⟩
  intro pre post ev hfresh hpre hpost
  rw [insertEventIntoDescendingList, hfresh]
  simp only [Bool.false_eq_true, if_false]
  exact insertByTimestamp_append pre post ev hpre hpost

/-- Witness for C3: the tie-placement clause applied at a concrete feed
with one equal-timestamp resident and one older resident. -/
theorem insert_tie_placement_witness :
    insertEventIntoDescendingList ([mkEv "1" 100] ++ [mkEv "0" 50])
      (mkEv "2" 100) = [mkEv "1" 100] ++ mkEv "2" 100 :: [mkEv "0" 50] :=
  insert_tie_placement.1 [mkEv "1" 100] [mkEv "0" 50] (mkEv "2" 100)
    (by decide) (by decide) (by decide)

/-! ### Subscription epochs (C5)

`App.tsx` resubscribes whenever `hashtags` (or the pool) changes: the
effect first runs `setEvents([])`, discarding the previous epoch's feed,
and the old subscription's cleanup `sub.unsub()` prevents further
old-epoch arrivals; afterwards each arriving event is merged with
`insertEventIntoDescendingList`. -/

/-- One observable operation on the feed state of `App.tsx`: an epoch
reset (`setEvents([])` at the start of the subscription effect) or the
arrival of an event on the live subscription. -/
inductive FeedOp where
  | reset : FeedOp
  | arrive : Event → FeedOp

/-- One step of the feed state: a reset clears the feed, an arrival merges
the event (`sub.on("event", ...)` in `App.tsx`). -/
def feedStep (feed : List Event) : FeedOp → List Event
  | FeedOp.reset => []
  | FeedOp.arrive ev => insertEventIntoDescendingList feed ev

/-- Running a sequence of feed operations from a given feed state. -/
def runFeedOps (feed : List Event) (ops : List FeedOp) : List Event :=
  ops.foldl feedStep feed

lemma runFeedOps_map_arrive (l : List Event) (feed : List Event) :
    runFeedOps feed (l.map FeedOp.arrive)
      = l.foldl insertEventIntoDescendingList feed := by
  induction l generalizing feed with
  | nil => rfl
  | cons ev rest ih => simpa [runFeedOps, feedStep] using ih _

/-- C5: a filter change discards the previous epoch's feed entirely: after
any history of operations followed by a reset, the feed equals the feed
built from the new epoch's arrivals alone, every element of it is one of
the new arrivals, a bare reset leaves the feed empty, and concretely
arrivals ts=10, ts=20, reset, ts=5 yield exactly the ts=5 item. -/
theorem epoch_reset_discards (ops : List FeedOp) (arrivals : List Event)
    (feed : List Event) :
    runFeedOps feed (ops ++ FeedOp.reset :: arrivals.map FeedOp.arrive)
      = feedOf arrivals ∧
    (∀ x ∈ runFeedOps feed
        (ops ++ FeedOp.reset :: arrivals.map FeedOp.arrive),
      x ∈ arrivals) ∧
    runFeedOps feed (ops ++ [FeedOp.reset]) = [] ∧
    runFeedOps [] [FeedOp.arrive (mkEv "1" 10), FeedOp.arrive (mkEv "2" 20),
      FeedOp.reset, FeedOp.arrive (mkEv "3" 5)] = [mkEv "3" 5] := by
  have hrun : runFeedOps feed
      (ops ++ FeedOp.reset :: arrivals.map FeedOp.arrive)
      = feedOf arrivals := by
    rw [runFeedOps, List.foldl_append]
    show runFeedOps _ (FeedOp.reset :: arrivals.map FeedOp.arrive) = _
    rw [runFeedOps, List.foldl_cons]
    show runFeedOps [] (arrivals.map FeedOp.arrive) = _
    rw [runFeedOps_map_arrive]
    rfl
  refine ⟨hrun, ?_, ?_, by decide⟩
  · intro x hx
    rw [hrun] at hx
    rcases mem_foldl_insert hx with h | h
    · cases h
    · exact h
  · rw [runFeedOps, List.foldl_append]
    rfl

/-- Witness for C5 at a concrete history, reset and new-epoch arrival. -/
theorem epoch_reset_discards_witness :
    mkEv "3" 5 ∈ runFeedOps []
      ([FeedOp.arrive (mkEv "1" 10), FeedOp.arrive (mkEv "2" 20)] ++
        FeedOp.reset :: [mkEv "3" 5].map FeedOp.arrive) ∧
    mkEv "3" 5 ∈ [mkEv "3" 5] :=
  ⟨by decide,
    (epoch_reset_discards
      [FeedOp.arrive (mkEv "1" 10), FeedOp.arrive (mkEv "2" 20)]
      [mkEv "3" 5] []).2.1 (mkEv "3" 5) (by decide)⟩

/-! ### The `CreateNote` component (`src/unnamed/part_000`)

State of the component: the `input` textarea, the `savedNotes` draft list
and the `editedNoteIndex` marker. -/

/-- The `useState` cells of `CreateNote`. -/
structure CNState where
  input : String
  savedNotes : List String
  editedNoteIndex : Option Nat
deriving DecidableEq, Repr

/-- Outcome of asking the external signer (`window.nostr`) for a public
key and a signature: either the user rejects (either `await` throws) or it
yields a pubkey and a signature. -/
inductive SignResult where
  | rejected : SignResult
  | signed : String → String → SignResult

/-- `handlePublish` of `CreateNote` up to the point the event is handed to
`pool.publish`: guards on the `window.nostr` extension being present and
the user confirming, then builds the base event from the input and the
hashtags, and asks the signer; a signer rejection is caught and surfaced
as the `"User rejected operation"` alert.  `getEventHash` is an external
hash over the event, modelled by the `eventId` input.  Returns the
component state after the call, the alert raised (if any), and the event
handed to `pool.publish` (if reached). -/
def handlePublish (hasNostr : Bool) (confirmPublish : Bool)
    (signResult : SignResult) (now : Int) (hashtags : List String)
    (eventId : String) (st : CNState) :
    CNState × Option String × Option Event :=
  if !hasNostr then (st, some "Nostr extension not found", none)
  else if !confirmPublish then (st, none, none)
  else
    match signResult with
    | SignResult.rejected => (st, some "User rejected operation", none)
    | SignResult.signed pubkey sig =>
        (st, none, some
          { id := eventId, pubkey := pubkey, created_at := now, kind := 1,
            tags := hashtags.map (fun hashtag => ["t", hashtag]),
            content := st.input, sig := sig })

/-- C6: when the external signer rejects the signing request (with the
extension present and the user having confirmed), `handlePublish` catches
the error, surfaces the `"User rejected operation"` notice, publishes
nothing, and leaves the component state — in particular `input` and
`editedNoteIndex` — exactly as it was, so the user can retry. -/
theorem publish_rejection_preserves_draft (now : Int)
    (hashtags : List String) (eventId : String) (st : CNState) :
    handlePublish true true SignResult.rejected now hashtags eventId st
      = (st, some "User rejected operation", none) := rfl

/-! ### The per-publish acknowledgement callback (C7, C10)

After `pool.publish`, `handlePublish` registers
`pubs.on("ok", ...)` guarded by a `clearedInput` flag local to the publish
attempt; there is no handler for per-endpoint failures, so a failure
changes nothing.  The user may keep typing (the textarea `onChange` calls
`setInput`) between acknowledgements. -/

/-- The state visible to one publish attempt's callbacks: the attempt's
`clearedInput` closure flag plus the `input` and `editedNoteIndex` cells. -/
structure PubState where
  clearedInput : Bool
  input : String
  editedNoteIndex : Option Nat
deriving DecidableEq, Repr

/-- The `pubs.on("ok", ...)` handler: if `clearedInput` is already set it
returns immediately; otherwise it sets the flag, clears the input and
clears the edited-note index. -/
def onOk (s : PubState) : PubState :=
  if s.clearedInput then s
  else { clearedInput := true, input := "", editedNoteIndex := none }

/-- An event observable during one publish attempt: an endpoint
acknowledgement (`"ok"`), an endpoint failure (for which no handler is
registered), or the user typing into the textarea. -/
inductive PubEv where
  | ok : PubEv
  | failed : PubEv
  | typeInput : String → PubEv

/-- One step of the publish-attempt state machine. -/
def pubStep (s : PubState) : PubEv → PubState
  | PubEv.ok => onOk s
  | PubEv.failed => s
  | PubEv.typeInput t => { s with input := t }

/-- Running a sequence of publish-attempt events. -/
def pubRun (s : PubState) (evs : List PubEv) : PubState :=
  evs.foldl pubStep s

/-- A per-endpoint acknowledgement outcome as an event: `true` is an
`"ok"`, `false` a failure. -/
def ackEv (b : Bool) : PubEv :=
  if b then PubEv.ok else PubEv.failed

lemma pubRun_cleared_acks (acks : List Bool) :
    pubRun ⟨true, "", none⟩ (acks.map ackEv) = ⟨true, "", none⟩ := by
  induction acks with
  | nil => rfl
  | cons b rest ih =>
      cases b <;> simpa [pubRun, ackEv, pubStep, onOk] using ih

/-- C7: publishing reports success with at-least-one semantics: for every
sequence of per-endpoint outcomes containing at least one acknowledgement,
the attempt ends with the success action performed (flag set, input
cleared, edited-note index cleared), regardless of how many endpoints
failed — the first `"ok"` triggers it and failures are not fatal. -/
theorem publish_any_ack_success (acks : List Bool) (inp : String)
    (idx : Option Nat) (h : acks.any id = true) :
    pubRun ⟨false, inp, idx⟩ (acks.map ackEv)
      = ⟨true, "", none⟩ := by
  induction acks with
  | nil => simp at h
  | cons b rest ih =>
      cases b with
      | true =>
          show pubRun (pubStep ⟨false, inp, idx⟩ (ackEv true))
            (rest.map ackEv) = _
          simpa [ackEv, pubStep, onOk] using pubRun_cleared_acks rest
      | false =>
          show pubRun (pubStep ⟨false, inp, idx⟩ (ackEv false))
            (rest.map ackEv) = _
          simp only [ackEv, pubStep]
          exact ih (by simpa using h)

/-- Witness for C7: one failure, then an acknowledgement, then another
failure still clears the draft state. -/
theorem publish_any_ack_success_witness :
    ([false, true, false].any id = true) ∧
    pubRun ⟨false, "draft", some 2⟩ ([false, true, false].map ackEv)
      = ⟨true, "", none⟩ :=
  ⟨by decide,
    publish_any_ack_success [false, true, false] "draft" (some 2)
      (by decide)⟩

lemma onOk_cleared (s : PubState) : (onOk s).clearedInput = true := by
  rw [onOk]
  split
  · assumption
  · rfl

lemma pubStep_cleared (s : PubState) (e : PubEv)
    (h : s.clearedInput = true) : (pubStep s e).clearedInput = true := by
  cases e with
  | ok => simp [pubStep, onOk, h]
  | failed => exact h
  | typeInput t => exact h

lemma pubRun_drop_ok (mid post : List PubEv) (s : PubState)
    (h : s.clearedInput = true) :
    pubRun s (mid ++ PubEv.ok :: post) = pubRun s (mid ++ post) := by
  induction mid generalizing s with
  | nil =>
      show pubRun (pubStep s PubEv.ok) post = pubRun s post
      have : pubStep s PubEv.ok = s := by simp [pubStep, onOk, h]
      rw [this]
  | cons e mid' ih =>
      show pubRun (pubStep s e) (mid' ++ PubEv.ok :: post)
        = pubRun (pubStep s e) (mid' ++ post)
      exact ih _ (pubStep_cleared s e h)

/-- C10: the acknowledgement handler is idempotent within one publish
attempt: a second `"ok"`, wherever it occurs after the first (with any
typing or failures in between), changes nothing — dropping it yields the
same final state — and on an already-cleared state with freshly typed
input the handler is the identity, so a later acknowledgement never clears
input typed after the first. -/
theorem ok_callback_idempotent (inp t : String) (idx idx2 : Option Nat)
    (pre mid post : List PubEv) :
    pubRun ⟨false, inp, idx⟩ (pre ++ PubEv.ok :: (mid ++ PubEv.ok :: post))
      = pubRun ⟨false, inp, idx⟩ (pre ++ PubEv.ok :: (mid ++ post)) ∧
    pubStep ⟨true, t, idx2⟩ PubEv.ok = ⟨true, t, idx2⟩ := by
  constructor
  · rw [pubRun, pubRun, List.foldl_append, List.foldl_append,
      List.foldl_cons, List.foldl_cons]
    exact pubRun_drop_ok mid post _ (onOk_cleared _)
  · simp [pubStep, onOk]

/-! ### Deleting a saved note (C9) -/

/-- The filter `savedNotes.filter((_, index) => index !== indexToDelete)`
of `handleDelete`: keep every note whose position differs from the deleted
index. -/
def removeAtFilter (notes : List String) (indexToDelete : Nat) :
    List String :=
  ((notes.enum).filter (fun p => p.1 != indexToDelete)).map Prod.snd

/-- `handleDelete` of `CreateNote`: if the note being deleted is the one
currently being edited (`editedNoteIndex !== null &&
editedNoteIndex === indexToDelete`), cancel the edit — clear the index and
the input — without touching `savedNotes`; otherwise filter the note out
of `savedNotes`. -/
def handleDelete (indexToDelete : Nat) (st : CNState) : CNState :=
  if st.editedNoteIndex = some indexToDelete then
    { st with editedNoteIndex := none, input := "" }
  else
    { st with savedNotes := removeAtFilter st.savedNotes indexToDelete }

lemma filter_enumFrom_lt (l : List String) (n k : Nat) (hk : k < n) :
    ((l.enumFrom n).filter (fun p => p.1 != k)).map Prod.snd = l := by
  induction l generalizing n with
  | nil => rfl
  | cons a t ih =>
      have hne : (n != k) = true := by
        simpa using Nat.ne_of_gt hk
      simp only [List.enumFrom, List.filter_cons, hne, if_true,
        List.map_cons]
      rw [ih (n + 1) (Nat.lt_succ_of_lt hk)]

lemma filter_enumFrom_eraseIdx (l : List String) (n i : Nat) :
    ((l.enumFrom n).filter (fun p => p.1 != (n + i))).map Prod.snd
      = l.eraseIdx i := by
  induction l generalizing n i with
  | nil => rfl
  | cons a t ih =>
      cases i with
      | zero =>
          have hne : (n != (n + 0)) = false := by simp
          simp only [List.enumFrom, List.filter_cons, hne, List.eraseIdx]
          exact filter_enumFrom_lt t (n + 1) n (Nat.lt_succ_self n)
      | succ j =>
          have hne : (n != (n + (j + 1))) = true := by
            simp [Nat.ne_of_lt (Nat.lt_add_of_pos_right (Nat.succ_pos j))]
          simp only [List.enumFrom, List.filter_cons, hne, if_true,
            List.map_cons, List.eraseIdx]
          have harith : n + (j + 1) = (n + 1) + j := by omega
          rw [harith, ih (n + 1) j]

lemma removeAtFilter_eq_eraseIdx (l : List String) (i : Nat) :
    removeAtFilter l i = l.eraseIdx i := by
  have h := filter_enumFrom_eraseIdx l 0 i
  simpa [removeAtFilter, List.enum] using h

/-- C9: deleting the index currently being edited removes nothing from the
saved notes — it only cancels the edit, clearing the input field and the
edited-note index; when the deleted index differs from the edited one (or
nothing is being edited), exactly the note at that index is removed and
the input and edited-note index stay as they are. -/
theorem delete_edited_cancels_edit (st : CNState) (indexToDelete : Nat) :
    (st.editedNoteIndex = some indexToDelete →
      handleDelete indexToDelete st
        = { st with editedNoteIndex := none, input := "" }) ∧
    (st.editedNoteIndex ≠ some indexToDelete →
      handleDelete indexToDelete st
        = { st with savedNotes := st.savedNotes.eraseIdx indexToDelete }) := by
  constructor
  · intro h
    simp [handleDelete, h]
  · intro h
    simp [handleDelete, h, removeAtFilter_eq_eraseIdx]

/-- Witness for C9: deleting index 1 while editing index 1 cancels the
edit and keeps all three saved notes. -/
theorem delete_edited_cancels_edit_witness :
    ((⟨"editing b", ["a", "b", "c"], some 1⟩ : CNState).editedNoteIndex
      = some 1) ∧
    handleDelete 1 ⟨"editing b", ["a", "b", "c"], some 1⟩
      = ⟨"", ["a", "b", "c"], none⟩ :=
  ⟨rfl, (delete_edited_cancels_edit ⟨"editing b", ["a", "b", "c"], some 1⟩
      1).1 rfl⟩

/-! ### Metadata lookups (C8)

The metadata effect of `App.tsx` keeps a `useRef` record
`metadataFetched` for the whole session; on each run it collects the
pubkeys of feed events not yet marked, marks them, and issues one
subscription for exactly those authors. -/

/-- The `pubkeysToFetch` computation of the metadata effect: the pubkeys
of the events whose author is not yet marked in `metadataFetched`. -/
def pubkeysToFetch (fetched : List String) (events : List Event) :
    List String :=
  (events.filter (fun event => !(fetched.contains event.pubkey))).map
    (fun event => event.pubkey)

/-- The author lists fetched across successive runs of the metadata
effect, one run per (debounced) feed value, threading the session-lifetime
`metadataFetched` record: each run fetches the not-yet-marked authors and
then marks them. -/
def metadataTrace (fetched : List String) :
    List (List Event) → List (List String)
  | [] => []
  | evs :: rest =>
      pubkeysToFetch fetched evs ::
        metadataTrace (fetched ++ pubkeysToFetch fetched evs) rest

lemma notMem_pubkeysToFetch {fetched : List String} {evs : List Event}
    {k : String} (hk : k ∈ fetched) : k ∉ pubkeysToFetch fetched evs := by
  intro hmem
  rw [pubkeysToFetch] at hmem
  rcases List.mem_map.mp hmem with ⟨e, he, hek⟩
  rw [List.mem_filter] at he
  have hf := he.2
  rw [hek] at hf
  simp only [Bool.not_eq_true'] at hf
  have hnc : ¬ (fetched.contains k = true) := by rw [hf]; simp
  exact hnc (List.contains_iff_exists_mem_beq.mpr ⟨k, hk, by simp⟩)

lemma metadataTrace_avoids_fetched {feeds : List (List Event)}
    {fetched A : List String} (hA : A ∈ metadataTrace fetched feeds) :
    ∀ k ∈ A, k ∉ fetched := by
  induction feeds generalizing fetched with
  | nil => cases hA
  | cons evs rest ih =>
      rw [metadataTrace] at hA
      rcases List.mem_cons.mp hA with hA | hA
      · subst hA
        intro k hk hkf
        exact notMem_pubkeysToFetch hkf hk
      · intro k hk hkf
        exact ih hA k hk (by simp [hkf])

/-- C8: metadata lookups are deduplicated per session: over any sequence
of feed values driving the metadata effect, the author lists fetched by
distinct runs are pairwise disjoint — once a pubkey has been marked as
fetched it never appears in any later run's fetch list. -/
theorem metadata_fetched_once (feeds : List (List Event)) :
    List.Pairwise (fun A B => ∀ k ∈ A, k ∉ B)
      (metadataTrace [] feeds) ∧
    (∀ (fetched : List String) (evs : List Event) (k : String),
      k ∈ fetched → k ∉ pubkeysToFetch fetched evs) := by
  constructor
  · have h : ∀ (fs : List (List Event)) (fetched : List String),
        List.Pairwise (fun A B => ∀ k ∈ A, k ∉ B)
          (metadataTrace fetched fs) := by
      intro fs
      induction fs with
      | nil => intro fetched; exact List.Pairwise.nil
      | cons evs rest ih =>
          intro fetched
          rw [metadataTrace]
          refine List.pairwise_cons.mpr ⟨?_, ih _⟩
          intro B hB k hk hkB
          exact metadataTrace_avoids_fetched hB k hkB (by simp [hk])
    exact h feeds []
  · intro fetched evs k hk
    exact notMem_pubkeysToFetch hk

/-- Witness for C8: a pubkey already marked as fetched is excluded from
the next run's fetch list. -/
theorem metadata_fetched_once_witness :
    ("alice" ∈ ["alice", "bob"]) ∧
    "alice" ∉ pubkeysToFetch ["alice", "bob"]
      [mkEv "e9" 9 "alice", mkEv "e8" 8 "carol"] :=
  ⟨by decide,
    (metadata_fetched_once []).2 ["alice", "bob"]
      [mkEv "e9" 9 "alice", mkEv "e8" 8 "carol"] "alice" (by decide)⟩

/-! ### Restoring drafts from a file (C4)

`handleRestore` of `CreateNote` reads the chosen file as text, runs
`JSON.parse` on it and assigns the result to `savedNotes` directly —
`setSavedNotes(parsedNotes)` — with no check on the parsed value's shape;
only a `JSON.parse` exception is caught and reported as
`"Invalid JSON file."`.  `JSON.parse` is the browser's JSON parser,
modelled here by a small recursive-descent parser over the JSON grammar
(numbers restricted to integer literals, string escapes to the common
single-character ones; the inputs used below stay inside this fragment). -/

/-- A parsed JSON value. -/
inductive Json where
  | null : Json
  | bool : Bool → Json
  | num : Int → Json
  | str : String → Json
  | arr : List Json → Json
  | obj : List (String × Json) → Json

/-- JSON whitespace skipping. -/
def skipWs : List Char → List Char
  | c :: cs =>
      if c = ' ' ∨ c = '\n' ∨ c = '\t' ∨ c = '\r' then skipWs cs
      else c :: cs
  | [] => []

/-- The value of a decimal digit character. -/
def digitVal (c : Char) : Option Nat :=
  if '0' ≤ c ∧ c ≤ '9' then some (c.toNat - '0'.toNat) else none

/-- Accumulate further decimal digits. -/
def parseDigitsAux : List Char → Nat → Nat × List Char
  | c :: cs, acc =>
      match digitVal c with
      | some d => parseDigitsAux cs (acc * 10 + d)
      | none => (acc, c :: cs)
  | [], acc => (acc, [])

/-- A nonempty run of decimal digits as a natural number. -/
def parseNat : List Char → Option (Nat × List Char)
  | c :: cs =>
      match digitVal c with
      | some d => some (parseDigitsAux cs d)
      | none => none
  | [] => none

/-- The body of a JSON string after its opening quote: the decoded
characters and the input after the closing quote. -/
def parseStringChars : Nat → List Char → Option (List Char × List Char)
  | 0, _ => none
  | _ + 1, [] => none
  | fuel + 1, c :: cs =>
      if c = '"' then some ([], cs)
      else if c = '\\' then
        match cs with
        | [] => none
        | e :: cs2 =>
            let ec : Option Char :=
              if e = '"' then some '"'
              else if e = '\\' then some '\\'
              else if e = '/' then some '/'
              else if e = 'n' then some '\n'
              else if e = 't' then some '\t'
              else if e = 'r' then some '\r'
              else none
            match ec with
            | some d =>
                match parseStringChars fuel cs2 with
                | some (s, rest) => some (d :: s, rest)
                | none => none
            | none => none
      else
        match parseStringChars fuel cs with
        | some (s, rest) => some (c :: s, rest)
        | none => none

mutual

/-- A JSON value at the head of the input (fuel-indexed; the fuel bounds
the nesting the parser will follow). -/
def parseValue : Nat → List Char → Option (Json × List Char)
  | 0, _ => none
  | fuel + 1, input =>
      match skipWs input with
      | [] => none
      | c :: cs =>
          if c = 'n' then
            match cs with
            | 'u' :: 'l' :: 'l' :: rest => some (Json.null, rest)
            | _ => none
          else if c = 't' then
            match cs with
            | 'r' :: 'u' :: 'e' :: rest => some (Json.bool true, rest)
            | _ => none
          else if c = 'f' then
            match cs with
            | 'a' :: 'l' :: 's' :: 'e' :: rest => some (Json.bool false, rest)
            | _ => none
          else if c = '"' then
            match parseStringChars (cs.length + 1) cs with
            | some (s, rest) => some (Json.str (String.mk s), rest)
            | none => none
          else if c = '-' then
            match parseNat cs with
            | some (n, rest) => some (Json.num (-(n : Int)), rest)
            | none => none
          else if c = '[' then
            match skipWs cs with
            | ']' :: rest => some (Json.arr [], rest)
            | cs2 =>
                match parseElems fuel cs2 with
                | some (xs, rest) => some (Json.arr xs, rest)
                | none => none
          else if c = '{' then
            match skipWs cs with
            | '}' :: rest => some (Json.obj [], rest)
            | cs2 =>
                match parseMembers fuel cs2 with
                | some (ms, rest) => some (Json.obj ms, rest)
                | none => none
          else
            match parseNat (c :: cs) with
            | some (n, rest) => some (Json.num (n : Int), rest)
            | none => none

/-- The comma-separated elements of a JSON array up to its `]`. -/
def parseElems : Nat → List Char → Option (List Json × List Char)
  | 0, _ => none
  | fuel + 1, input =>
      match parseValue fuel input with
      | none => none
      | some (v, rest) =>
          match skipWs rest with
          | ',' :: r2 =>
              match parseElems fuel r2 with
              | some (vs, r3) => some (v :: vs, r3)
              | none => none
          | ']' :: r2 => some ([v], r2)
          | _ => none

/-- The comma-separated members of a JSON object up to its `}`. -/
def parseMembers : Nat → List Char →
    Option (List (String × Json) × List Char)
  | 0, _ => none
  | fuel + 1, input =>
      match skipWs input with
      | '"' :: cs =>
          match parseStringChars (cs.length + 1) cs with
          | some (key, rest) =>
              match skipWs rest with
              | ':' :: r2 =>
                  match parseValue fuel r2 with
                  | none => none
                  | some (v, r3) =>
                      match skipWs r3 with
                      | ',' :: r4 =>
                          match parseMembers fuel r4 with
                          | some (ms, r5) =>
                              some ((String.mk key, v) :: ms, r5)
                          | none => none
                      | '}' :: r4 => some ([(String.mk key, v)], r4)
                      | _ => none
              | _ => none
          | none => none
      | _ => none

end

/-- `JSON.parse` over a whole string: a single JSON value followed only by
whitespace; anything else is a parse failure (the thrown exception). -/
def parseJson (content : String) : Option Json :=
  match parseValue (2 * content.length + 2) content.toList with
  | some (v, rest) => if skipWs rest = [] then some v else none
  | none => none

/-- `handleRestore` of `CreateNote` on the text of the chosen file: on a
successful `JSON.parse` the parsed value — whatever its shape — replaces
`savedNotes` (the source assigns the raw parse result, unchecked); on a
parse failure the `"Invalid JSON file."` alert is raised and the notes are
left unchanged.  The notes slot is a dynamic `Json` value because the
runtime state is untyped. -/
def handleRestore (content : String) (savedNotes : Json) :
    Json × Option String :=
  match parseJson content with
  | some parsedNotes => (parsedNotes, none)
  | none => (savedNotes, some "Invalid JSON file.")

/-- The spec's acceptance shape, for comparison: content that is a
sequence of strings. -/
def isStringArray : Json → Bool
  | Json.arr xs =>
      xs.all fun x =>
        match x with
        | Json.str _ => true
        | _ => false
  | _ => false

/-- C4 counterexample: the input `42` is well-formed JSON but not a
sequence of strings; restoring from it raises no error and replaces the
saved notes with the number — the claim's "fails with a user-visible
invalid-file error and leaves the existing saved notes unchanged for
every input that is not a sequence of strings" is false on the code. -/
theorem restore_accepts_non_string_array :
    isStringArray (Json.num 42) = false ∧
    parseJson "42" = some (Json.num 42) ∧
    handleRestore "42" (Json.arr [Json.str "keep"]) = (Json.num 42, none) ∧
    Json.num 42 ≠ Json.arr [Json.str "keep"] :=
  ⟨rfl, rfl, rfl, fun h => Json.noConfusion h⟩

/-- C4 amended: restoring drafts validates only that the content parses
as JSON.  Any successfully parsed JSON value — whatever its shape, even
when it is not a sequence of strings — is accepted and replaces the saved
notes with no error; only a JSON parse failure raises the user-visible
`"Invalid JSON file."` alert and leaves the in-memory saved notes
unchanged. -/
theorem restore_validates_json_only (content : String)
    (savedNotes : Json) :
    (parseJson content = none →
      handleRestore content savedNotes
        = (savedNotes, some "Invalid JSON file.")) ∧
    (∀ v, parseJson content = some v →
      handleRestore content savedNotes = (v, none)) := by
  constructor
  · intro h
    simp [handleRestore, h]
  · intro v h
    simp [handleRestore, h]

/-- Witness for the amended C4: a malformed input alerts and keeps the
notes; a well-formed array of strings is accepted. -/
theorem restore_validates_json_only_witness :
    (parseJson "not json" = none ∧
      handleRestore "not json" (Json.arr [Json.str "keep"])
        = (Json.arr [Json.str "keep"], some "Invalid JSON file.")) ∧
    (parseJson "[\"a\"]" = some (Json.arr [Json.str "a"]) ∧
      handleRestore "[\"a\"]" (Json.arr [Json.str "keep"])
        = (Json.arr [Json.str "a"], none)) :=
  ⟨⟨rfl, (restore_validates_json_only "not json"
      (Json.arr [Json.str "keep"])).1 rfl⟩,
   ⟨rfl, (restore_validates_json_only "[\"a\"]"
      (Json.arr [Json.str "keep"])).2 (Json.arr [Json.str "a"]) rfl⟩⟩
